import Mathlib

/-!
Verification of the public-API diff engine of `cargo-public-api`
(`src/diff.rs`: `PublicItemsDiff::between`, `print_with_headers`), together
with spec-modelled components whose code is outside the staged sources
(the Item declaration model, the deny policy evaluator, and the checkout
orchestrator).

The Rust `Vec`s that `between` treats as stacks (popping from the end of an
ascending-sorted vector) are embedded as Lean lists popped from the head of
the reversed (hence descending-sorted) list; pushes to the three output
vectors append in pop order, which the embedding mirrors by consing at each
recursion level.
-/

/-- Modelled from the spec: the Item declaration model (the Rust `PublicItem`
wrapping `PublicItemInner`, defined outside the staged sources). Fields per
§3 of the spec: `path` is the identity key, `pre`/`suf` the surrounding
signature text (the spec's "prefix"/"suffix"), and `tokens` an optional
structured sequence of classified text fragments. Equality is full
structural equality over all four fields. -/
structure PublicItem where
  path : String
  pre : String
  suf : String
  tokens : Option (List String)
deriving DecidableEq, Repr

/-- The full rendered signature of an item: surrounding signature text
around the path (spec §3: "prefix, suffix: ... together with path forms the
full rendered signature"). -/
def render (i : PublicItem) : String := i.pre ++ i.path ++ i.suf

/-- Lexicographic comparison of token lists, elementwise by the string
comparison; a proper initial segment sorts first. -/
def cmpList : List String → List String → Ordering
  | [], [] => .eq
  | [], _ :: _ => .lt
  | _ :: _, [] => .gt
  | a :: as, b :: bs => (compare a b).then (cmpList as bs)

/-- Comparison of the optional token sequences: absence sorts first. -/
def cmpTokens : Option (List String) → Option (List String) → Ordering
  | none, none => .eq
  | none, some _ => .lt
  | some _, none => .gt
  | some s, some t => cmpList s t

/-- Modelled from the spec: the total order on Items (the Rust derived `Ord`
on `PublicItemInner`, defined outside the staged sources). Spec §3: a total
order, "lexicographic by (path, full rendered signature)"; the remaining
structural fields break the ties that are invisible in the rendered
signature, so that the comparison is antisymmetric with respect to the
spec's structural equality, as "total order" requires. -/
def PublicItem.cmp (a b : PublicItem) : Ordering :=
  (compare a.path b.path).then ((compare (render a) (render b)).then
    ((compare a.pre b.pre).then ((compare a.suf b.suf).then
      (cmpTokens a.tokens b.tokens))))

/-- The nonstrict order on Items induced by `PublicItem.cmp`. -/
def itemLe (a b : PublicItem) : Prop := PublicItem.cmp a b ≠ .gt

/-- The strict order on Items induced by `PublicItem.cmp`. -/
def itemLt (a b : PublicItem) : Prop := PublicItem.cmp a b = .lt

instance : DecidableRel itemLe := fun a b => by unfold itemLe; infer_instance

instance : DecidableRel itemLt := fun a b => by unfold itemLt; infer_instance

/-- An item has changed in the public API (`ChangedPublicItem` in
`src/diff.rs`): how the item used to look (`old`) and how it looks now
(`new`). -/
structure ChangedPublicItem where
  old : PublicItem
  new : PublicItem
deriving DecidableEq, Repr

/-- Derived lexicographic comparison on changed pairs (the Rust
`#[derive(PartialOrd, Ord)]` on `ChangedPublicItem`). -/
def ChangedPublicItem.cmp (c d : ChangedPublicItem) : Ordering :=
  (PublicItem.cmp c.old d.old).then (PublicItem.cmp c.new d.new)

/-- The nonstrict order on changed pairs. -/
def changedLe (c d : ChangedPublicItem) : Prop := ChangedPublicItem.cmp c d ≠ .gt

instance : DecidableRel changedLe := fun c d => by unfold changedLe; infer_instance

/-- Swap the two sides of a changed pair. -/
def ChangedPublicItem.swapSides (c : ChangedPublicItem) : ChangedPublicItem :=
  ⟨c.new, c.old⟩

/-- Rust's ascending stable `Vec::sort` on item vectors. -/
def sortItems (l : List PublicItem) : List PublicItem := l.insertionSort itemLe

/-- Rust's ascending stable `Vec::sort` on changed-pair vectors. -/
def sortChanged (l : List ChangedPublicItem) : List ChangedPublicItem :=
  l.insertionSort changedLe

/-- The return value of `PublicItemsDiff::between` in `src/diff.rs`: items
removed from, changed in, and added to the public API. -/
structure PublicItemsDiff where
  removed : List PublicItem
  changed : List ChangedPublicItem
  added : List PublicItem
deriving DecidableEq, Repr

/-- The merge loop of `PublicItemsDiff::between` (`src/diff.rs` lines
64-102). Both arguments are stacks holding their greatest element first
(the embedding of popping from the end of an ascending-sorted `Vec`). -/
def mergeLoop : List PublicItem → List PublicItem → PublicItemsDiff
  | [], [] => ⟨[], [], []⟩
  | o :: os, [] =>
      let r := mergeLoop os []
      ⟨o :: r.removed, r.changed, r.added⟩
  | [], n :: ns =>
      let r := mergeLoop [] ns
      ⟨r.removed, r.changed, n :: r.added⟩
  | o :: os, n :: ns =>
      if o ≠ n ∧ o.path = n.path then
        -- The same item, but there has been a change in type
        let r := mergeLoop os ns
        ⟨r.removed, ⟨o, n⟩ :: r.changed, r.added⟩
      else
        match PublicItem.cmp o n with
        | .lt =>
            -- Add `o` back and compare it again next iteration
            let r := mergeLoop (o :: os) ns
            ⟨r.removed, r.changed, n :: r.added⟩
        | .eq =>
            -- This is the same item, so just continue to the next pair
            mergeLoop os ns
        | .gt =>
            -- Add `n` back and compare it again next iteration
            let r := mergeLoop os (n :: ns)
            ⟨o :: r.removed, r.changed, r.added⟩
termination_by os ns => os.length + ns.length
decreasing_by all_goals simp_arith

/-- `PublicItemsDiff::between` (`src/diff.rs` lines 48-114): sort both
inputs ascending, run the merge loop on them viewed as stacks, then sort
the three outputs to make the result predictable and stable. -/
def between (old_items new_items : List PublicItem) : PublicItemsDiff :=
  let old_sorted := sortItems old_items
  let new_sorted := sortItems new_items
  let m := mergeLoop old_sorted.reverse new_sorted.reverse
  ⟨sortItems m.removed, sortChanged m.changed, sortItems m.added⟩

/-- Fuel-indexed version of the merge loop: one unit of fuel is spent per
loop iteration, and `none` is returned if the fuel runs out before the
loop's exit condition (both stacks empty) is reached. Used to state that
the loop of `PublicItemsDiff::between` terminates within
`|old| + |new|` iterations. -/
def mergeLoopFuel : Nat → List PublicItem → List PublicItem → Option PublicItemsDiff
  | 0, _, _ => none
  | _ + 1, [], [] => some ⟨[], [], []⟩
  | f + 1, o :: os, [] =>
      match mergeLoopFuel f os [] with
      | none => none
      | some r => some ⟨o :: r.removed, r.changed, r.added⟩
  | f + 1, [], n :: ns =>
      match mergeLoopFuel f [] ns with
      | none => none
      | some r => some ⟨r.removed, r.changed, n :: r.added⟩
  | f + 1, o :: os, n :: ns =>
      if o ≠ n ∧ o.path = n.path then
        match mergeLoopFuel f os ns with
        | none => none
        | some r => some ⟨r.removed, ⟨o, n⟩ :: r.changed, r.added⟩
      else
        match PublicItem.cmp o n with
        | .lt =>
            match mergeLoopFuel f (o :: os) ns with
            | none => none
            | some r => some ⟨r.removed, r.changed, n :: r.added⟩
        | .eq => mergeLoopFuel f os ns
        | .gt =>
            match mergeLoopFuel f os (n :: ns) with
            | none => none
            | some r => some ⟨o :: r.removed, r.changed, r.added⟩

/-! ### Output rendering (`print_with_headers`, `src/diff.rs` lines 123-160)

The byte writer (`impl std::io::Write`) is embedded as the list of lines
written so far; each `writeln!` appends one line. The model writer cannot
fail, which drops only the I/O error propagation of the Rust code. -/

/-- One `writeln!(w, ...)` call: append one line to the writer. -/
def writeln (w : List String) (line : String) : List String := w ++ [line]

/-- Modelled from the spec: the plain-text `Display` rendering of an Item
(defined outside the staged sources). Rich rendering joins the classified
token fragments; absence of tokens degrades gracefully to the
prefix/path/suffix plain text (spec §3). -/
def PublicItem.toStr (i : PublicItem) : String :=
  match i.tokens with
  | some ts => String.join ts
  | none => i.pre ++ i.path ++ i.suf

/-- `print_items_with_header` (`src/diff.rs` lines 145-160): write the
header, then `(nothing)` if the section is empty or else one rendering per
item, then one blank line. -/
def print_items_with_header {T : Type} (w : List String) (header : String)
    (items : List T) (print_fn : List String → T → List String) : List String :=
  let w1 := writeln w header
  let w2 :=
    if items.isEmpty then writeln w1 "(nothing)"
    else items.foldl print_fn w1
  writeln w2 ""

/-- `PublicItemsDiff::print_with_headers` (`src/diff.rs` lines 123-142):
the removed section, then the changed section, then the added section. -/
def print_with_headers (d : PublicItemsDiff) (w : List String)
    (header_removed header_changed header_added : String) : List String :=
  let w1 := print_items_with_header w header_removed d.removed
    (fun w item => writeln w ("-" ++ item.toStr))
  let w2 := print_items_with_header w1 header_changed d.changed
    (fun w item => writeln (writeln w ("-" ++ item.old.toStr)) ("+" ++ item.new.toStr))
  print_items_with_header w2 header_added d.added
    (fun w item => writeln w ("+" ++ item.toStr))

/-- The claim's description of one printed section, stated independently of
the printing code: the header line, then either the literal `(nothing)`
line or the given item lines, then one blank line. -/
def sectionLinesSpec (header : String) (ls : List String) : List String :=
  header :: (if ls = [] then ["(nothing)"] else ls) ++ [""]

/-! ### Deny policy evaluator (spec §4.3; its code is outside the staged
sources, only its tests are staged) -/

/-- One of the deny rules selectable with repeated `--deny` flags. -/
inductive DenyRule
  | all
  | added
  | changed
  | removed
deriving DecidableEq, Repr

/-- Modelled from the spec: whether one deny rule's corresponding bucket of
the diff is non-empty; `all` covers the union of the three buckets. -/
def ruleViolated (d : PublicItemsDiff) : DenyRule → Bool
  | .added => !d.added.isEmpty
  | .changed => !d.changed.isEmpty
  | .removed => !d.removed.isEmpty
  | .all => !d.added.isEmpty || !d.changed.isEmpty || !d.removed.isEmpty

/-- Modelled from the spec: the deny policy evaluator — given a computed
diff and the selected rules, it fails (returns `true`) exactly when some
selected rule is violated. -/
def denyEval (d : PublicItemsDiff) (rules : List DenyRule) : Bool :=
  rules.any (ruleViolated d)

/-! ### Checkout orchestrator (spec §4.5; its code is outside the staged
sources, only its tests are staged) -/

/-- How to return a working tree to its starting point: the current branch
name if HEAD is on a branch, else the exact current commit (detached). -/
inductive RepoHead
  | branch (name : String)
  | detached (commit : String)
deriving DecidableEq, Repr

/-- The mutable working tree, reduced to the one piece of state the
restoration guarantee is about: where HEAD points. -/
structure Repo where
  head : RepoHead
deriving DecidableEq, Repr

/-- Modelled from the spec: checking out a reference to diff moves HEAD to
the commit the reference resolves to. -/
def checkoutRef (resolve : String → String) (_r : Repo) (ref : String) : Repo :=
  ⟨.detached (resolve ref)⟩

/-- Modelled from the spec: restoration re-checks out the captured
`RepositoryState` — the same branch, or the same commit if originally
detached. -/
def restoreRepo (_r : Repo) (captured : RepoHead) : Repo := ⟨captured⟩

/-- Modelled from the spec: the checkout orchestrator for a reference-pair
diff. Capture the repository state, check out and extract the first
reference, then the second; on every exit path — success or a collaborator
(extraction) failure — restore the captured state before returning. -/
def orchestrateDiff (resolve : String → String)
    (extract : Repo → Except String (List PublicItem))
    (repo : Repo) (ref1 ref2 : String) :
    Except String (List PublicItem × List PublicItem) × Repo :=
  let captured := repo.head
  let r1 := checkoutRef resolve repo ref1
  match extract r1 with
  | .error e => (.error e, restoreRepo r1 captured)
  | .ok items1 =>
    let r2 := checkoutRef resolve r1 ref2
    match extract r2 with
    | .error e => (.error e, restoreRepo r2 captured)
    | .ok items2 => (.ok (items1, items2), restoreRepo r2 captured)

/-- Concrete sample item: `pub fn p(i32)` at path `p`. -/
def sampleA : PublicItem := ⟨"p", "pub fn ", "(i32)", none⟩

/-- Concrete sample item sharing `sampleA`'s path but structurally
different: `pub fn p(u32)` at path `p`. -/
def sampleB : PublicItem := ⟨"p", "pub fn ", "(u32)", none⟩

/-! ### Ordering helpers -/

theorem ordThen_eq_eq {x y : Ordering} : x.then y = .eq ↔ x = .eq ∧ y = .eq := by
  cases x <;> simp [Ordering.then]

theorem ordThen_eq_lt {x y : Ordering} :
    x.then y = .lt ↔ x = .lt ∨ (x = .eq ∧ y = .lt) := by
  cases x <;> simp [Ordering.then]

theorem ordThen_swap {x y : Ordering} : (x.then y).swap = x.swap.then y.swap := by
  cases x <;> rfl

theorem ordSwap_lt {x : Ordering} : x.swap = .lt ↔ x = .gt := by
  cases x <;> simp [Ordering.swap]

theorem ordSwap_gt {x : Ordering} : x.swap = .gt ↔ x = .lt := by
  cases x <;> simp [Ordering.swap]

/-! ### Lawful comparison functions

A three-way comparison is lawful when `eq` results coincide with equality,
swapping the arguments swaps the verdict, and strict results compose
transitively. These three facts make the induced relation
`fun a b => cmp a b ≠ .gt` a total preorder that is antisymmetric, which is
what the spec's "total order" on Items (§3) asserts. -/

structure LawfulCmp {α : Type} (cmp : α → α → Ordering) : Prop where
  eq_iff : ∀ a b, cmp a b = .eq ↔ a = b
  swap_eq : ∀ a b, (cmp a b).swap = cmp b a
  lt_trans : ∀ ⦃a b c⦄, cmp a b = .lt → cmp b c = .lt → cmp a c = .lt

theorem LawfulCmp.cmp_self {α : Type} {cmp : α → α → Ordering}
    (h : LawfulCmp cmp) (a : α) : cmp a a = .eq :=
  (h.eq_iff a a).mpr rfl

theorem LawfulCmp.gt_iff {α : Type} {cmp : α → α → Ordering}
    (h : LawfulCmp cmp) (a b : α) : cmp a b = .gt ↔ cmp b a = .lt := by
  rw [← h.swap_eq a b, ordSwap_lt]

theorem lawfulCmp_compare {α : Type} [LinearOrder α] :
    LawfulCmp (fun a b : α => compare a b) where
  eq_iff a b := compare_eq_iff_eq
  swap_eq a b := by
    rcases lt_trichotomy a b with h | h | h
    · rw [compare_lt_iff_lt.mpr h, compare_gt_iff_gt.mpr h]; rfl
    · subst h; rw [compare_eq_iff_eq.mpr rfl]; rfl
    · rw [compare_gt_iff_gt.mpr h, compare_lt_iff_lt.mpr h]; rfl
  lt_trans a b c hab hbc :=
    compare_lt_iff_lt.mpr ((compare_lt_iff_lt.mp hab).trans (compare_lt_iff_lt.mp hbc))

theorem lawful_cmpList : LawfulCmp cmpList where
  eq_iff a b := by
    induction a generalizing b with
    | nil => cases b <;> simp [cmpList]
    | cons x xs ih =>
      cases b with
      | nil => simp [cmpList]
      | cons y ys =>
        simp only [cmpList, ordThen_eq_eq, List.cons.injEq, ih ys]
        exact and_congr_left fun _ => (lawfulCmp_compare.eq_iff x y)
  swap_eq a b := by
    induction a generalizing b with
    | nil => cases b <;> rfl
    | cons x xs ih =>
      cases b with
      | nil => rfl
      | cons y ys => simp only [cmpList, ordThen_swap, ih ys,
          lawfulCmp_compare.swap_eq x y]
  lt_trans a b c hab hbc := by
    induction a generalizing b c with
    | nil =>
      cases b with
      | nil => exact hbc
      | cons y ys => cases c with
        | nil => cases hbc
        | cons z zs => rfl
    | cons x xs ih =>
      cases b with
      | nil => cases hab
      | cons y ys =>
        cases c with
        | nil => cases hbc
        | cons z zs =>
          simp only [cmpList, ordThen_eq_lt] at hab hbc ⊢
          rcases hab with hxy | ⟨hxy, hab⟩ <;> rcases hbc with hyz | ⟨hyz, hbc⟩
          · exact Or.inl (lawfulCmp_compare.lt_trans hxy hyz)
          · rw [lawfulCmp_compare.eq_iff] at hyz; subst hyz; exact Or.inl hxy
          · rw [lawfulCmp_compare.eq_iff] at hxy; subst hxy; exact Or.inl hyz
          · rw [lawfulCmp_compare.eq_iff] at hxy; subst hxy
            exact Or.inr ⟨hyz, ih ys zs hab hbc⟩

theorem lawful_cmpTokens : LawfulCmp cmpTokens where
  eq_iff a b := by
    cases a <;> cases b <;> simp [cmpTokens, lawful_cmpList.eq_iff]
  swap_eq a b := by
    cases a <;> cases b <;> simp [cmpTokens, lawful_cmpList.swap_eq] <;> rfl
  lt_trans a b c hab hbc := by
    cases a <;> cases b <;> cases c <;>
      simp only [cmpTokens] at hab hbc ⊢ <;>
      first
        | rfl
        | exact lawful_cmpList.lt_trans hab hbc
        | exact absurd hab (by decide)
        | exact absurd hbc (by decide)

/-- Lexicographic composition of two comparisons on a product. -/
def cmpProd {α β : Type} (c₁ : α → α → Ordering) (c₂ : β → β → Ordering)
    (p q : α × β) : Ordering :=
  (c₁ p.1 q.1).then (c₂ p.2 q.2)

theorem LawfulCmp.prod {α β : Type} {c₁ : α → α → Ordering} {c₂ : β → β → Ordering}
    (h₁ : LawfulCmp c₁) (h₂ : LawfulCmp c₂) : LawfulCmp (cmpProd c₁ c₂) where
  eq_iff p q := by
    simp only [cmpProd, ordThen_eq_eq, h₁.eq_iff, h₂.eq_iff]
    exact (Prod.ext_iff).symm
  swap_eq p q := by
    simp only [cmpProd, ordThen_swap, h₁.swap_eq, h₂.swap_eq]
  lt_trans p q r hpq hqr := by
    simp only [cmpProd, ordThen_eq_lt] at hpq hqr ⊢
    rcases hpq with h1 | ⟨h1, h1'⟩ <;> rcases hqr with h2 | ⟨h2, h2'⟩
    · exact Or.inl (h₁.lt_trans h1 h2)
    · rw [h₁.eq_iff] at h2; rw [← h2]; exact Or.inl h1
    · rw [h₁.eq_iff] at h1; rw [h1]; exact Or.inl h2
    · rw [h₁.eq_iff] at h1; rw [h₁.eq_iff] at h2
      exact Or.inr ⟨by rw [h1, h2, h₁.eq_iff], h₂.lt_trans h1' h2'⟩

theorem LawfulCmp.comap {α β : Type} {c : β → β → Ordering} (h : LawfulCmp c)
    (e : α → β) (inj : Function.Injective e) :
    LawfulCmp (fun x y => c (e x) (e y)) where
  eq_iff a b := by
    rw [h.eq_iff]
    exact ⟨fun he => inj he, fun he => by rw [he]⟩
  swap_eq a b := h.swap_eq (e a) (e b)
  lt_trans a b c hab hbc := h.lt_trans hab hbc

/-- The sort key realizing `PublicItem.cmp` as a lexicographic product. -/
def itemKey (i : PublicItem) :
    String × String × String × String × Option (List String) :=
  (i.path, render i, i.pre, i.suf, i.tokens)

theorem itemKey_injective : Function.Injective itemKey := by
  intro a b h
  simp only [itemKey, Prod.mk.injEq] at h
  obtain ⟨h1, -, h3, h4, h5⟩ := h
  cases a; cases b; simp_all

theorem cmp_eq_cmpKey (a b : PublicItem) :
    PublicItem.cmp a b =
      cmpProd (fun s t : String => compare s t)
        (cmpProd (fun s t : String => compare s t)
          (cmpProd (fun s t : String => compare s t)
            (cmpProd (fun s t : String => compare s t) cmpTokens)))
        (itemKey a) (itemKey b) := rfl

theorem lawful_itemCmp : LawfulCmp PublicItem.cmp := by
  have h := ((lawfulCmp_compare.prod (lawfulCmp_compare.prod
    (lawfulCmp_compare.prod (lawfulCmp_compare.prod
      lawful_cmpTokens)))).comap itemKey itemKey_injective)
  exact ⟨fun a b => h.eq_iff a b, fun a b => h.swap_eq a b,
    fun a b c => h.lt_trans (a := a) (b := b) (c := c)⟩

theorem changedKey_injective :
    Function.Injective (fun c : ChangedPublicItem => (c.old, c.new)) := by
  intro a b h
  simp only [Prod.mk.injEq] at h
  cases a; cases b; simp_all

theorem lawful_changedCmp : LawfulCmp ChangedPublicItem.cmp := by
  have h := ((lawful_itemCmp.prod lawful_itemCmp).comap
    (fun c : ChangedPublicItem => (c.old, c.new)) changedKey_injective)
  exact ⟨fun a b => h.eq_iff a b, fun a b => h.swap_eq a b,
    fun a b c => h.lt_trans (a := a) (b := b) (c := c)⟩

/-! ### The induced total order -/

theorem LawfulCmp.le_rfl {α : Type} {cmp : α → α → Ordering}
    (h : LawfulCmp cmp) (a : α) : cmp a a ≠ .gt := by
  rw [h.cmp_self a]; intro hc; cases hc

theorem LawfulCmp.le_trans {α : Type} {cmp : α → α → Ordering}
    (h : LawfulCmp cmp) {a b c : α}
    (hab : cmp a b ≠ .gt) (hbc : cmp b c ≠ .gt) : cmp a c ≠ .gt := by
  cases hab' : cmp a b with
  | gt => exact absurd hab' hab
  | eq => rw [h.eq_iff] at hab'; rw [hab']; exact hbc
  | lt =>
    cases hbc' : cmp b c with
    | gt => exact absurd hbc' hbc
    | eq => rw [h.eq_iff] at hbc'; rw [← hbc']; intro hc; rw [hab'] at hc; cases hc
    | lt => rw [h.lt_trans hab' hbc']; intro hc; cases hc

theorem LawfulCmp.le_total {α : Type} {cmp : α → α → Ordering}
    (h : LawfulCmp cmp) (a b : α) : cmp a b ≠ .gt ∨ cmp b a ≠ .gt := by
  cases hab : cmp a b with
  | lt => exact Or.inl (by intro hc; cases hc)
  | eq => exact Or.inl (by intro hc; cases hc)
  | gt =>
    refine Or.inr ?_
    rw [(h.gt_iff a b).mp hab]
    intro hc; cases hc

theorem LawfulCmp.le_antisymm {α : Type} {cmp : α → α → Ordering}
    (h : LawfulCmp cmp) {a b : α}
    (hab : cmp a b ≠ .gt) (hba : cmp b a ≠ .gt) : a = b := by
  cases hab' : cmp a b with
  | gt => exact absurd hab' hab
  | eq => exact (h.eq_iff a b).mp hab'
  | lt => exact absurd ((h.gt_iff b a).mpr hab') hba

instance : IsTotal PublicItem itemLe := ⟨fun a b => lawful_itemCmp.le_total a b⟩

instance : IsTrans PublicItem itemLe := ⟨fun _ _ _ => lawful_itemCmp.le_trans⟩

instance : IsAntisymm PublicItem itemLe := ⟨fun _ _ => lawful_itemCmp.le_antisymm⟩

instance : IsTotal ChangedPublicItem changedLe :=
  ⟨fun a b => lawful_changedCmp.le_total a b⟩

instance : IsTrans ChangedPublicItem changedLe :=
  ⟨fun _ _ _ => lawful_changedCmp.le_trans⟩

instance : IsAntisymm ChangedPublicItem changedLe :=
  ⟨fun _ _ => lawful_changedCmp.le_antisymm⟩

/-! ### Sorting -/

theorem sortItems_perm (l : List PublicItem) : List.Perm (sortItems l) l :=
  List.perm_insertionSort itemLe l

theorem sortItems_sorted (l : List PublicItem) : List.Sorted itemLe (sortItems l) :=
  List.sorted_insertionSort itemLe l

theorem sortItems_eq_of_perm {l l' : List PublicItem} (h : List.Perm l l') :
    sortItems l = sortItems l' :=
  List.eq_of_perm_of_sorted ((sortItems_perm l).trans (h.trans (sortItems_perm l').symm))
    (sortItems_sorted l) (sortItems_sorted l')

theorem sortItems_eq_self {l : List PublicItem} (h : List.Sorted itemLe l) :
    sortItems l = l :=
  List.eq_of_perm_of_sorted (sortItems_perm l) (sortItems_sorted l) h

theorem sortChanged_perm (l : List ChangedPublicItem) : List.Perm (sortChanged l) l :=
  List.perm_insertionSort changedLe l

theorem sortChanged_sorted (l : List ChangedPublicItem) :
    List.Sorted changedLe (sortChanged l) :=
  List.sorted_insertionSort changedLe l

theorem sortChanged_eq_self {l : List ChangedPublicItem}
    (h : List.Sorted changedLe l) : sortChanged l = l :=
  List.eq_of_perm_of_sorted (sortChanged_perm l) (sortChanged_sorted l) h

/-! ### Branch equations of the merge loop -/

theorem mergeLoop_nil_nil : mergeLoop [] [] = ⟨[], [], []⟩ := by
  simp [mergeLoop]

theorem mergeLoop_cons_nil (o : PublicItem) (os : List PublicItem) :
    mergeLoop (o :: os) [] =
      ⟨o :: (mergeLoop os []).removed, (mergeLoop os []).changed,
        (mergeLoop os []).added⟩ := by
  simp [mergeLoop]

theorem mergeLoop_nil_cons (n : PublicItem) (ns : List PublicItem) :
    mergeLoop [] (n :: ns) =
      ⟨(mergeLoop [] ns).removed, (mergeLoop [] ns).changed,
        n :: (mergeLoop [] ns).added⟩ := by
  simp [mergeLoop]

theorem mergeLoop_changed {o n : PublicItem} (os ns : List PublicItem)
    (h : o ≠ n ∧ o.path = n.path) :
    mergeLoop (o :: os) (n :: ns) =
      ⟨(mergeLoop os ns).removed, ⟨o, n⟩ :: (mergeLoop os ns).changed,
        (mergeLoop os ns).added⟩ := by
  rw [mergeLoop]; simp [h]

theorem mergeLoop_lt {o n : PublicItem} (os ns : List PublicItem)
    (h : ¬(o ≠ n ∧ o.path = n.path)) (hc : PublicItem.cmp o n = .lt) :
    mergeLoop (o :: os) (n :: ns) =
      ⟨(mergeLoop (o :: os) ns).removed, (mergeLoop (o :: os) ns).changed,
        n :: (mergeLoop (o :: os) ns).added⟩ := by
  rw [mergeLoop]; simp [h, hc]

theorem mergeLoop_eqc {o n : PublicItem} (os ns : List PublicItem)
    (h : ¬(o ≠ n ∧ o.path = n.path)) (hc : PublicItem.cmp o n = .eq) :
    mergeLoop (o :: os) (n :: ns) = mergeLoop os ns := by
  rw [mergeLoop]; simp [h, hc]

theorem mergeLoop_gt {o n : PublicItem} (os ns : List PublicItem)
    (h : ¬(o ≠ n ∧ o.path = n.path)) (hc : PublicItem.cmp o n = .gt) :
    mergeLoop (o :: os) (n :: ns) =
      ⟨o :: (mergeLoop os (n :: ns)).removed, (mergeLoop os (n :: ns)).changed,
        (mergeLoop os (n :: ns)).added⟩ := by
  rw [mergeLoop]; simp [h, hc]

/-! ### Structural lemmas about the merge loop -/

theorem mergeLoop_self : ∀ l : List PublicItem, mergeLoop l l = ⟨[], [], []⟩
  | [] => mergeLoop_nil_nil
  | h :: t => by
    rw [mergeLoop_eqc t t (by simp) (lawful_itemCmp.cmp_self h)]
    exact mergeLoop_self t

/-- The count invariant of the merge loop: one `unchanged` tally accounts
for both inputs. -/
theorem mergeLoop_counts (os ns : List PublicItem) :
    ∃ u : Nat,
      os.length = (mergeLoop os ns).removed.length + (mergeLoop os ns).changed.length + u ∧
      ns.length = (mergeLoop os ns).added.length + (mergeLoop os ns).changed.length + u := by
  induction os, ns using mergeLoop.induct with
  | case1 => exact ⟨0, by simp [mergeLoop_nil_nil]⟩
  | case2 o os ih =>
    obtain ⟨u, h1, h2⟩ := ih
    rw [mergeLoop_cons_nil]
    exact ⟨u, by simp only [List.length_cons]; omega, h2⟩
  | case3 n ns ih =>
    obtain ⟨u, h1, h2⟩ := ih
    rw [mergeLoop_nil_cons]
    exact ⟨u, h1, by simp only [List.length_cons]; omega⟩
  | case4 o os n ns h ih =>
    obtain ⟨u, h1, h2⟩ := ih
    rw [mergeLoop_changed os ns h]
    exact ⟨u, by simp only [List.length_cons]; omega,
      by simp only [List.length_cons]; omega⟩
  | case5 o os n ns h hc ih =>
    obtain ⟨u, h1, h2⟩ := ih
    rw [mergeLoop_lt os ns h hc]
    exact ⟨u, h1, by simp only [List.length_cons]; omega⟩
  | case6 o os n ns h hc ih =>
    obtain ⟨u, h1, h2⟩ := ih
    rw [mergeLoop_eqc os ns h hc]
    exact ⟨u + 1, by simp only [List.length_cons]; omega,
      by simp only [List.length_cons]; omega⟩
  | case7 o os n ns h hc ih =>
    obtain ⟨u, h1, h2⟩ := ih
    rw [mergeLoop_gt os ns h hc]
    exact ⟨u, by simp only [List.length_cons]; omega, h2⟩

/-- Items are only moved, never synthesized: the removed items together
with the old sides of the changed pairs are a sub-multiset of the old
input, and symmetrically for the new side. -/
theorem mergeLoop_sub (os ns : List PublicItem) :
    (((mergeLoop os ns).removed : Multiset PublicItem) +
        (((mergeLoop os ns).changed.map ChangedPublicItem.old : List PublicItem) :
          Multiset PublicItem) ≤ (os : Multiset PublicItem)) ∧
    (((mergeLoop os ns).added : Multiset PublicItem) +
        (((mergeLoop os ns).changed.map ChangedPublicItem.new : List PublicItem) :
          Multiset PublicItem) ≤ (ns : Multiset PublicItem)) := by
  induction os, ns using mergeLoop.induct with
  | case1 => simp [mergeLoop_nil_nil]
  | case2 o os ih =>
    rw [mergeLoop_cons_nil]
    refine ⟨?_, ih.2⟩
    simp only [Multiset.cons_coe, Multiset.cons_add]
    exact Multiset.cons_le_cons o ih.1
  | case3 n ns ih =>
    rw [mergeLoop_nil_cons]
    refine ⟨ih.1, ?_⟩
    simp only [Multiset.cons_coe, Multiset.cons_add]
    exact Multiset.cons_le_cons n ih.2
  | case4 o os n ns h ih =>
    rw [mergeLoop_changed os ns h]
    constructor
    · simp only [List.map_cons, ← Multiset.cons_coe, Multiset.cons_add,
        Multiset.add_cons]
      exact Multiset.cons_le_cons o ih.1
    · simp only [List.map_cons, ← Multiset.cons_coe, Multiset.cons_add,
        Multiset.add_cons]
      exact Multiset.cons_le_cons n ih.2
  | case5 o os n ns h hc ih =>
    rw [mergeLoop_lt os ns h hc]
    refine ⟨ih.1, ?_⟩
    simp only [Multiset.cons_coe, Multiset.cons_add]
    exact Multiset.cons_le_cons n ih.2
  | case6 o os n ns h hc ih =>
    rw [mergeLoop_eqc os ns h hc]
    exact ⟨ih.1.trans (Multiset.le_cons_self _ o), ih.2.trans (Multiset.le_cons_self _ n)⟩
  | case7 o os n ns h hc ih =>
    rw [mergeLoop_gt os ns h hc]
    refine ⟨?_, ih.2⟩
    simp only [Multiset.cons_coe, Multiset.cons_add]
    exact Multiset.cons_le_cons o ih.1

/-- Every changed pair produced by the merge loop joins two structurally
unequal items that share a path. -/
theorem mergeLoop_changed_spec (os ns : List PublicItem) :
    ∀ p ∈ (mergeLoop os ns).changed, p.old ≠ p.new ∧ p.old.path = p.new.path := by
  induction os, ns using mergeLoop.induct with
  | case1 => simp [mergeLoop_nil_nil]
  | case2 o os ih => rw [mergeLoop_cons_nil]; exact ih
  | case3 n ns ih => rw [mergeLoop_nil_cons]; exact ih
  | case4 o os n ns h ih =>
    rw [mergeLoop_changed os ns h]
    intro p hp
    rcases List.mem_cons.mp hp with hp | hp
    · rw [hp]; exact h
    · exact ih p hp
  | case5 o os n ns h hc ih => rw [mergeLoop_lt os ns h hc]; exact ih
  | case6 o os n ns h hc ih => rw [mergeLoop_eqc os ns h hc]; exact ih
  | case7 o os n ns h hc ih => rw [mergeLoop_gt os ns h hc]; exact ih

/-- Both sides of every changed pair come from the respective input stack. -/
theorem mergeLoop_changed_mem (os ns : List PublicItem) :
    ∀ p ∈ (mergeLoop os ns).changed, p.old ∈ os ∧ p.new ∈ ns := by
  induction os, ns using mergeLoop.induct with
  | case1 => simp [mergeLoop_nil_nil]
  | case2 o os ih =>
    rw [mergeLoop_cons_nil]
    intro p hp
    exact ⟨List.mem_cons_of_mem o (ih p hp).1, (ih p hp).2⟩
  | case3 n ns ih =>
    rw [mergeLoop_nil_cons]
    intro p hp
    exact ⟨(ih p hp).1, List.mem_cons_of_mem n (ih p hp).2⟩
  | case4 o os n ns h ih =>
    rw [mergeLoop_changed os ns h]
    intro p hp
    rcases List.mem_cons.mp hp with hp | hp
    · rw [hp]; exact ⟨List.mem_cons_self o os, List.mem_cons_self n ns⟩
    · exact ⟨List.mem_cons_of_mem o (ih p hp).1, List.mem_cons_of_mem n (ih p hp).2⟩
  | case5 o os n ns h hc ih =>
    rw [mergeLoop_lt os ns h hc]
    intro p hp
    exact ⟨(ih p hp).1, List.mem_cons_of_mem n (ih p hp).2⟩
  | case6 o os n ns h hc ih =>
    rw [mergeLoop_eqc os ns h hc]
    intro p hp
    exact ⟨List.mem_cons_of_mem o (ih p hp).1, List.mem_cons_of_mem n (ih p hp).2⟩
  | case7 o os n ns h hc ih =>
    rw [mergeLoop_gt os ns h hc]
    intro p hp
    exact ⟨List.mem_cons_of_mem o (ih p hp).1, (ih p hp).2⟩

theorem changedCond_comm {o n : PublicItem} :
    (n ≠ o ∧ n.path = o.path) ↔ (o ≠ n ∧ o.path = n.path) := by
  constructor <;> rintro ⟨h1, h2⟩ <;> exact ⟨h1.symm, h2.symm⟩

/-- Running the merge loop with the two stacks exchanged exchanges the
removed and added outputs and flips each changed pair. -/
theorem mergeLoop_swapped (os ns : List PublicItem) :
    mergeLoop ns os =
      ⟨(mergeLoop os ns).added,
        (mergeLoop os ns).changed.map ChangedPublicItem.swapSides,
        (mergeLoop os ns).removed⟩ := by
  induction os, ns using mergeLoop.induct with
  | case1 => simp [mergeLoop_nil_nil]
  | case2 o os ih =>
    rw [mergeLoop_cons_nil, mergeLoop_nil_cons, ih]
  | case3 n ns ih =>
    rw [mergeLoop_nil_cons, mergeLoop_cons_nil, ih]
  | case4 o os n ns h ih =>
    rw [mergeLoop_changed os ns h, mergeLoop_changed ns os (changedCond_comm.mpr h), ih]
    simp [ChangedPublicItem.swapSides]
  | case5 o os n ns h hc ih =>
    rw [mergeLoop_lt os ns h hc,
      mergeLoop_gt ns os (fun hx => h (changedCond_comm.mp hx))
        ((lawful_itemCmp.gt_iff n o).mpr hc), ih]
  | case6 o os n ns h hc ih =>
    have hno : PublicItem.cmp n o = .eq := by
      rw [lawful_itemCmp.eq_iff] at hc ⊢
      exact hc.symm
    rw [mergeLoop_eqc os ns h hc,
      mergeLoop_eqc ns os (fun hx => h (changedCond_comm.mp hx)) hno, ih]
  | case7 o os n ns h hc ih =>
    rw [mergeLoop_gt os ns h hc,
      mergeLoop_lt ns os (fun hx => h (changedCond_comm.mp hx))
        ((lawful_itemCmp.gt_iff o n).mp hc), ih]

/-- When the two stacks are sorted descending, the changed pairs come out
in an order that is descending in both coordinates at once. -/
theorem mergeLoop_changed_pairwise (os ns : List PublicItem)
    (ho : List.Sorted (fun a b => itemLe b a) os)
    (hn : List.Sorted (fun a b => itemLe b a) ns) :
    List.Pairwise (fun p q : ChangedPublicItem => itemLe q.old p.old ∧ itemLe q.new p.new)
      (mergeLoop os ns).changed := by
  induction os, ns using mergeLoop.induct with
  | case1 => simp [mergeLoop_nil_nil]
  | case2 o os ih => rw [mergeLoop_cons_nil]; exact ih ho.of_cons hn
  | case3 n ns ih => rw [mergeLoop_nil_cons]; exact ih ho hn.of_cons
  | case4 o os n ns h ih =>
    rw [mergeLoop_changed os ns h]
    refine List.Pairwise.cons ?_ (ih ho.of_cons hn.of_cons)
    intro q hq
    obtain ⟨hqo, hqn⟩ := mergeLoop_changed_mem os ns q hq
    exact ⟨List.rel_of_sorted_cons ho q.old hqo, List.rel_of_sorted_cons hn q.new hqn⟩
  | case5 o os n ns h hc ih => rw [mergeLoop_lt os ns h hc]; exact ih ho hn.of_cons
  | case6 o os n ns h hc ih => rw [mergeLoop_eqc os ns h hc]; exact ih ho.of_cons hn.of_cons
  | case7 o os n ns h hc ih => rw [mergeLoop_gt os ns h hc]; exact ih ho.of_cons hn

/-- The fuel version of the merge loop reaches the loop's own result —
rather than running out of fuel — whenever the fuel exceeds the combined
stack size, because every iteration consumes at least one item net. -/
theorem mergeLoopFuel_sufficient (f : Nat) :
    ∀ os ns : List PublicItem, os.length + ns.length < f →
      mergeLoopFuel f os ns = some (mergeLoop os ns) := by
  induction f with
  | zero => intro os ns h; exact absurd h (Nat.not_lt_zero _)
  | succ f ih =>
    intro os ns h
    cases os with
    | nil =>
      cases ns with
      | nil => simp [mergeLoopFuel, mergeLoop_nil_nil]
      | cons n ns =>
        rw [mergeLoop_nil_cons]
        simp only [mergeLoopFuel]
        rw [ih [] ns (by simp only [List.length_cons, List.length_nil] at h ⊢; omega)]
    | cons o os =>
      cases ns with
      | nil =>
        rw [mergeLoop_cons_nil]
        simp only [mergeLoopFuel]
        rw [ih os [] (by simp only [List.length_cons, List.length_nil] at h ⊢; omega)]
      | cons n ns =>
        by_cases hcond : o ≠ n ∧ o.path = n.path
        · rw [mergeLoop_changed os ns hcond]
          simp only [mergeLoopFuel, if_pos hcond]
          rw [ih os ns (by simp only [List.length_cons] at h ⊢; omega)]
        · cases hcmp : PublicItem.cmp o n with
          | lt =>
            rw [mergeLoop_lt os ns hcond hcmp]
            simp only [mergeLoopFuel, if_neg hcond, hcmp]
            rw [ih (o :: os) ns (by simp only [List.length_cons] at h ⊢; omega)]
          | eq =>
            rw [mergeLoop_eqc os ns hcond hcmp]
            simp only [mergeLoopFuel, if_neg hcond, hcmp]
            exact ih os ns (by simp only [List.length_cons] at h ⊢; omega)
          | gt =>
            rw [mergeLoop_gt os ns hcond hcmp]
            simp only [mergeLoopFuel, if_neg hcond, hcmp]
            rw [ih os (n :: ns) (by simp only [List.length_cons] at h ⊢; omega)]

/-! ### Claims about the diff engine -/

/-- C1: `between` partitions both inputs: a single `unchanged` count
satisfies `|old| = |removed| + |changed| + unchanged` and
`|new| = |added| + |changed| + unchanged`, and the removed items together
with the old sides of the changed pairs form a sub-multiset of the old
input, symmetrically for added/new. -/
theorem claimC1_between_partitions (old_items new_items : List PublicItem) :
    ∃ u : Nat,
      old_items.length = (between old_items new_items).removed.length +
          (between old_items new_items).changed.length + u ∧
      new_items.length = (between old_items new_items).added.length +
          (between old_items new_items).changed.length + u ∧
      ((between old_items new_items).removed : Multiset PublicItem) +
          ↑((between old_items new_items).changed.map ChangedPublicItem.old)
          ≤ (old_items : Multiset PublicItem) ∧
      ((between old_items new_items).added : Multiset PublicItem) +
          ↑((between old_items new_items).changed.map ChangedPublicItem.new)
          ≤ (new_items : Multiset PublicItem) := by
  obtain ⟨u, h1, h2⟩ :=
    mergeLoop_counts (sortItems old_items).reverse (sortItems new_items).reverse
  obtain ⟨hs1, hs2⟩ :=
    mergeLoop_sub (sortItems old_items).reverse (sortItems new_items).reverse
  simp only [between]
  refine ⟨u, ?_, ?_, ?_, ?_⟩
  · have er := (sortItems_perm
      (mergeLoop (sortItems old_items).reverse (sortItems new_items).reverse).removed).length_eq
    have ec := (sortChanged_perm
      (mergeLoop (sortItems old_items).reverse (sortItems new_items).reverse).changed).length_eq
    have eo : (sortItems old_items).reverse.length = old_items.length := by
      rw [List.length_reverse]; exact (sortItems_perm old_items).length_eq
    omega
  · have ea := (sortItems_perm
      (mergeLoop (sortItems old_items).reverse (sortItems new_items).reverse).added).length_eq
    have ec := (sortChanged_perm
      (mergeLoop (sortItems old_items).reverse (sortItems new_items).reverse).changed).length_eq
    have en : (sortItems new_items).reverse.length = new_items.length := by
      rw [List.length_reverse]; exact (sortItems_perm new_items).length_eq
    omega
  · have m1 : ((sortItems (mergeLoop (sortItems old_items).reverse
        (sortItems new_items).reverse).removed : List PublicItem) : Multiset PublicItem) =
        ↑(mergeLoop (sortItems old_items).reverse (sortItems new_items).reverse).removed :=
      Multiset.coe_eq_coe.mpr (sortItems_perm _)
    have m2 : (((sortChanged (mergeLoop (sortItems old_items).reverse
        (sortItems new_items).reverse).changed).map ChangedPublicItem.old :
          List PublicItem) : Multiset PublicItem) =
        ↑((mergeLoop (sortItems old_items).reverse
            (sortItems new_items).reverse).changed.map ChangedPublicItem.old) :=
      Multiset.coe_eq_coe.mpr (List.Perm.map _ (sortChanged_perm _))
    have m3 : ((old_items : List PublicItem) : Multiset PublicItem) =
        ↑((sortItems old_items).reverse) :=
      Multiset.coe_eq_coe.mpr
        (((sortItems old_items).reverse_perm.trans (sortItems_perm old_items)).symm)
    rw [m1, m2, m3]
    exact hs1
  · have m1 : ((sortItems (mergeLoop (sortItems old_items).reverse
        (sortItems new_items).reverse).added : List PublicItem) : Multiset PublicItem) =
        ↑(mergeLoop (sortItems old_items).reverse (sortItems new_items).reverse).added :=
      Multiset.coe_eq_coe.mpr (sortItems_perm _)
    have m2 : (((sortChanged (mergeLoop (sortItems old_items).reverse
        (sortItems new_items).reverse).changed).map ChangedPublicItem.new :
          List PublicItem) : Multiset PublicItem) =
        ↑((mergeLoop (sortItems old_items).reverse
            (sortItems new_items).reverse).changed.map ChangedPublicItem.new) :=
      Multiset.coe_eq_coe.mpr (List.Perm.map _ (sortChanged_perm _))
    have m3 : ((new_items : List PublicItem) : Multiset PublicItem) =
        ↑((sortItems new_items).reverse) :=
      Multiset.coe_eq_coe.mpr
        (((sortItems new_items).reverse_perm.trans (sortItems_perm new_items)).symm)
    rw [m1, m2, m3]
    exact hs2

/-- C2: the merge loop of `between` terminates with a result for every
pair of finite collections — its combined stack size strictly decreases
every iteration, so with fuel one more than the combined input size the
fuel-indexed loop completes (never exhausts its fuel) and returns the
loop's result. -/
theorem claimC2_merge_terminates (old_items new_items : List PublicItem) :
    mergeLoopFuel (old_items.length + new_items.length + 1) old_items new_items =
      some (mergeLoop old_items new_items) :=
  mergeLoopFuel_sufficient _ old_items new_items (by omega)

/-- C3: for every Item collection `x`, including collections containing
duplicate-valued items, `between x x` has empty removed, changed and
added collections. -/
theorem claimC3_between_self_empty (x : List PublicItem) :
    between x x = ⟨[], [], []⟩ := by
  simp only [between, mergeLoop_self]
  rfl

/-- C5: `between` is deterministic and independent of input ordering —
permuting either input leaves the diff identical — and the removed,
changed and added outputs are each sorted ascending by the total order. -/
theorem claimC5_between_order_independent
    (old_items new_items old' new' : List PublicItem)
    (h1 : List.Perm old' old_items) (h2 : List.Perm new' new_items) :
    between old' new' = between old_items new_items ∧
    List.Sorted itemLe (between old_items new_items).removed ∧
    List.Sorted changedLe (between old_items new_items).changed ∧
    List.Sorted itemLe (between old_items new_items).added := by
  refine ⟨?_, ?_, ?_, ?_⟩
  · simp only [between, sortItems_eq_of_perm h1, sortItems_eq_of_perm h2]
  · simp only [between]; exact sortItems_sorted _
  · simp only [between]; exact sortChanged_sorted _
  · simp only [between]; exact sortItems_sorted _

/-- C6: every changed pair in any diff returned by `between` consists of
two items that share a path but are not structurally equal. -/
theorem claimC6_changed_pairs (old_items new_items : List PublicItem) :
    ∀ p ∈ (between old_items new_items).changed,
      p.old.path = p.new.path ∧ p.old ≠ p.new := by
  simp only [between]
  intro p hp
  have hp' := (sortChanged_perm _).mem_iff.mp hp
  have h := mergeLoop_changed_spec _ _ p hp'
  exact ⟨h.2, h.1⟩

/-- Sample evaluation of `between` on two items that share a path but are
structurally different: the pair is classified as changed. -/
theorem between_sample_eval :
    between [sampleA] [sampleB] = ⟨[], [⟨sampleA, sampleB⟩], []⟩ := by
  simp only [between]
  rw [show sortItems [sampleA] = [sampleA] from rfl,
    show sortItems [sampleB] = [sampleB] from rfl,
    show ([sampleA] : List PublicItem).reverse = [sampleA] from rfl,
    show ([sampleB] : List PublicItem).reverse = [sampleB] from rfl,
    mergeLoop_changed [] [] ⟨by decide, by decide⟩, mergeLoop_nil_nil]
  rfl

/-- Witness for C5 at a concrete input: `[sampleB, sampleA]` is a
permutation of `[sampleA, sampleB]` and the conclusion holds there. -/
theorem claimC5_witness :
    List.Perm [sampleB, sampleA] [sampleA, sampleB] ∧
    List.Perm ([] : List PublicItem) [] ∧
    (between [sampleB, sampleA] [] = between [sampleA, sampleB] [] ∧
      List.Sorted itemLe (between [sampleA, sampleB] []).removed ∧
      List.Sorted changedLe (between [sampleA, sampleB] []).changed ∧
      List.Sorted itemLe (between [sampleA, sampleB] []).added) :=
  ⟨List.Perm.swap sampleA sampleB [], List.Perm.refl [],
    claimC5_between_order_independent [sampleA, sampleB] [] [sampleB, sampleA] []
      (List.Perm.swap sampleA sampleB []) (List.Perm.refl [])⟩

/-- Witness for C6 at a concrete input: the changed pair produced by
diffing `[sampleA]` against `[sampleB]` shares a path and is structurally
unequal. -/
theorem claimC6_witness :
    (⟨sampleA, sampleB⟩ : ChangedPublicItem).old.path =
      (⟨sampleA, sampleB⟩ : ChangedPublicItem).new.path ∧
    (⟨sampleA, sampleB⟩ : ChangedPublicItem).old ≠
      (⟨sampleA, sampleB⟩ : ChangedPublicItem).new :=
  claimC6_changed_pairs [sampleA] [sampleB] ⟨sampleA, sampleB⟩
    (by rw [between_sample_eval]; exact List.mem_singleton_self _)

/-! ### Claims about the deny policy evaluator and the orchestrator -/

/-- One rule is violated exactly when the bucket the claim associates with
it is non-empty. -/
theorem ruleViolated_iff (d : PublicItemsDiff) (r : DenyRule) :
    ruleViolated d r = true ↔
      ((r = DenyRule.added ∧ d.added ≠ []) ∨
        (r = DenyRule.changed ∧ d.changed ≠ []) ∨
        (r = DenyRule.removed ∧ d.removed ≠ []) ∨
        (r = DenyRule.all ∧ (d.added ≠ [] ∨ d.changed ≠ [] ∨ d.removed ≠ []))) := by
  cases r <;> simp [ruleViolated, List.isEmpty_iff, or_assoc]

/-- C8: for every computed diff and non-empty rule selection, the deny
evaluator fails iff at least one selected rule's corresponding bucket is
non-empty, with `all` standing for the union of the three buckets; in
particular `{all}` against an all-empty diff passes. -/
theorem claimC8_deny_fails_iff (d : PublicItemsDiff) (rules : List DenyRule)
    (hne : rules ≠ []) :
    denyEval d rules = true ↔
      ∃ r ∈ rules,
        ((r = DenyRule.added ∧ d.added ≠ []) ∨
          (r = DenyRule.changed ∧ d.changed ≠ []) ∨
          (r = DenyRule.removed ∧ d.removed ≠ []) ∨
          (r = DenyRule.all ∧ (d.added ≠ [] ∨ d.changed ≠ [] ∨ d.removed ≠ []))) := by
  unfold denyEval
  rw [List.any_eq_true]
  constructor
  · rintro ⟨r, hr, hv⟩
    exact ⟨r, hr, (ruleViolated_iff d r).mp hv⟩
  · rintro ⟨r, hr, hv⟩
    exact ⟨r, hr, (ruleViolated_iff d r).mpr hv⟩

/-- Witness for C8 at a concrete input: evaluating `{all}` against the
all-empty diff passes (the failure condition is equivalent to a false
disjunction there). -/
theorem claimC8_witness :
    ([DenyRule.all] : List DenyRule) ≠ [] ∧
    (denyEval ⟨[], [], []⟩ [DenyRule.all] = true ↔
      ∃ r ∈ ([DenyRule.all] : List DenyRule),
        ((r = DenyRule.added ∧ ([] : List PublicItem) ≠ []) ∨
          (r = DenyRule.changed ∧ ([] : List ChangedPublicItem) ≠ []) ∨
          (r = DenyRule.removed ∧ ([] : List PublicItem) ≠ []) ∨
          (r = DenyRule.all ∧ (([] : List PublicItem) ≠ [] ∨
            ([] : List ChangedPublicItem) ≠ [] ∨ ([] : List PublicItem) ≠ [])))) :=
  ⟨by decide, claimC8_deny_fails_iff ⟨[], [], []⟩ [DenyRule.all] (by decide)⟩

/-- C7: the checkout orchestrator restores the starting repository state on
every exit path: whatever the extraction collaborator does — succeed twice
or fail at either step — HEAD afterwards is exactly what was captured, the
same branch if the repository started on a branch and the same commit if
it started detached. -/
theorem claimC7_orchestrator_restores (resolve : String → String)
    (extract : Repo → Except String (List PublicItem))
    (repo : Repo) (ref1 ref2 : String) :
    ((orchestrateDiff resolve extract repo ref1 ref2).2).head = repo.head := by
  simp only [orchestrateDiff]
  cases h1 : extract (checkoutRef resolve repo ref1) with
  | error e => simp [restoreRepo]
  | ok items1 =>
    cases h2 : extract (checkoutRef resolve (checkoutRef resolve repo ref1) ref2) with
    | error e => simp [restoreRepo]
    | ok items2 => simp [restoreRepo]

/-- A pair that is below another in both coordinates is below it in the
lexicographic pair order. -/
theorem changedLe_of_coords {p q : ChangedPublicItem}
    (h1 : itemLe p.old q.old) (h2 : itemLe p.new q.new) : changedLe p q := by
  unfold changedLe ChangedPublicItem.cmp
  unfold itemLe at h1 h2
  cases hc : PublicItem.cmp p.old q.old with
  | lt => simp [Ordering.then]
  | eq => simpa [Ordering.then] using h2
  | gt => exact absurd hc h1

/-- The reversed sorted input of the merge loop is sorted descending. -/
theorem sortItems_reverse_desc (l : List PublicItem) :
    List.Sorted (fun a b => itemLe b a) ((sortItems l).reverse) :=
  List.pairwise_reverse.mpr (sortItems_sorted l)

/-- Sorting a changed list that is descending in both coordinates reverses
it. -/
theorem sortChanged_eq_reverse {c : List ChangedPublicItem}
    (hp : List.Pairwise
      (fun p q : ChangedPublicItem => itemLe q.old p.old ∧ itemLe q.new p.new) c) :
    sortChanged c = c.reverse := by
  refine List.eq_of_perm_of_sorted
    ((sortChanged_perm c).trans (c.reverse_perm).symm) (sortChanged_sorted c) ?_
  refine List.pairwise_reverse.mpr ?_
  exact hp.imp fun h => changedLe_of_coords h.1 h.2

/-- On a changed list that is descending in both coordinates, sorting
commutes with flipping every pair. -/
theorem sortChanged_map_swapSides {c : List ChangedPublicItem}
    (hp : List.Pairwise
      (fun p q : ChangedPublicItem => itemLe q.old p.old ∧ itemLe q.new p.new) c) :
    sortChanged (c.map ChangedPublicItem.swapSides) =
      (sortChanged c).map ChangedPublicItem.swapSides := by
  have hp' : List.Pairwise
      (fun p q : ChangedPublicItem => itemLe q.old p.old ∧ itemLe q.new p.new)
      (c.map ChangedPublicItem.swapSides) := by
    rw [List.pairwise_map]
    exact hp.imp fun h => ⟨h.2, h.1⟩
  rw [sortChanged_eq_reverse hp, sortChanged_eq_reverse hp', ← List.map_reverse]

/-- C4: `between new old` equals `between old new` with the added and
removed collections swapped and with the old/new sides of each changed
pair swapped. -/
theorem claimC4_between_swap (old_items new_items : List PublicItem) :
    between new_items old_items =
      ⟨(between old_items new_items).added,
        (between old_items new_items).changed.map ChangedPublicItem.swapSides,
        (between old_items new_items).removed⟩ := by
  simp only [between]
  rw [mergeLoop_swapped ((sortItems old_items).reverse) ((sortItems new_items).reverse)]
  have hp := mergeLoop_changed_pairwise
    ((sortItems old_items).reverse) ((sortItems new_items).reverse)
    (sortItems_reverse_desc old_items) (sortItems_reverse_desc new_items)
  dsimp only
  rw [sortChanged_map_swapSides hp]

/-! ### Claims about output rendering and the greatest-first pairing -/

theorem foldl_writeln_one {T : Type} (items : List T) (pf : T → String) :
    ∀ w : List String,
      items.foldl (fun w t => writeln w (pf t)) w = w ++ items.map pf := by
  induction items with
  | nil => intro w; simp
  | cons x xs ih =>
    intro w
    rw [List.foldl_cons, ih]
    simp [writeln, List.append_assoc]

theorem foldl_writeln_two {T : Type} (items : List T) (p1 p2 : T → String) :
    ∀ w : List String,
      items.foldl (fun w t => writeln (writeln w (p1 t)) (p2 t)) w =
        w ++ items.flatMap (fun t => [p1 t, p2 t]) := by
  induction items with
  | nil => intro w; simp
  | cons x xs ih =>
    intro w
    rw [List.foldl_cons, ih]
    simp [writeln, List.append_assoc]

theorem print_items_with_header_one {T : Type} (w : List String) (header : String)
    (items : List T) (pf : T → String) :
    print_items_with_header w header items (fun w t => writeln w (pf t)) =
      w ++ sectionLinesSpec header (items.map pf) := by
  cases items with
  | nil => simp [print_items_with_header, sectionLinesSpec, writeln]
  | cons x xs =>
    simp only [print_items_with_header, sectionLinesSpec, List.isEmpty_cons,
      List.map_cons, foldl_writeln_one]
    simp [writeln, List.append_assoc]

theorem print_items_with_header_two {T : Type} (w : List String) (header : String)
    (items : List T) (p1 p2 : T → String) :
    print_items_with_header w header items
        (fun w t => writeln (writeln w (p1 t)) (p2 t)) =
      w ++ sectionLinesSpec header (items.flatMap (fun t => [p1 t, p2 t])) := by
  cases items with
  | nil => simp [print_items_with_header, sectionLinesSpec, writeln]
  | cons x xs =>
    simp only [print_items_with_header, sectionLinesSpec, List.isEmpty_cons,
      List.flatMap_cons, foldl_writeln_two]
    simp [writeln, List.append_assoc]

/-- C9: for every diff, `print_with_headers` writes the removed, changed
and added sections in that order; each section is its header line, then
the literal `(nothing)` line when the section is empty or else one `-item`
line per removed item, a `-old` line immediately followed by a `+new` line
per changed pair, and one `+item` line per added item, and each section is
followed by one blank line. -/
theorem claimC9_print_with_headers (d : PublicItemsDiff)
    (header_removed header_changed header_added : String) :
    print_with_headers d [] header_removed header_changed header_added =
      sectionLinesSpec header_removed (d.removed.map (fun i => "-" ++ i.toStr)) ++
      sectionLinesSpec header_changed
        (d.changed.flatMap (fun c => ["-" ++ c.old.toStr, "+" ++ c.new.toStr])) ++
      sectionLinesSpec header_added (d.added.map (fun i => "+" ++ i.toStr)) := by
  simp only [print_with_headers, print_items_with_header_one,
    print_items_with_header_two, List.nil_append, List.append_assoc]

/-- C10: when both inputs contain items sharing one path, `between` pairs
them greatest-first rather than matching identical items: for `i1`, `i2`
with equal paths, `i1 ≠ i2` and `i1 < i2` in the total order, diffing
`[i1]` against `[i1, i2]` classifies `(old = i1, new = i2)` as changed and
the structurally unchanged `i1` as added. -/
theorem claimC10_greatest_first (i1 i2 : PublicItem)
    (hpath : i1.path = i2.path) (hne : i1 ≠ i2) (hlt : itemLt i1 i2) :
    between [i1] [i1, i2] = ⟨[], [⟨i1, i2⟩], [i1]⟩ := by
  have hle : itemLe i1 i2 := by
    unfold itemLe
    unfold itemLt at hlt
    rw [hlt]
    decide
  have hs2 : sortItems [i1, i2] = [i1, i2] := by
    unfold sortItems
    simp [List.insertionSort, List.orderedInsert, hle]
  simp only [between]
  rw [show sortItems [i1] = [i1] from rfl, hs2,
    show ([i1] : List PublicItem).reverse = [i1] from rfl,
    show ([i1, i2] : List PublicItem).reverse = [i2, i1] from rfl,
    mergeLoop_changed [] [i1] ⟨hne, hpath⟩, mergeLoop_nil_cons, mergeLoop_nil_nil]
  rfl

/-- Witness for C10 at concrete items: `sampleA` and `sampleB` share a
path, are structurally unequal, `sampleA` sorts below `sampleB`, and the
diff is as the claim describes. -/
theorem claimC10_witness :
    sampleA.path = sampleB.path ∧ sampleA ≠ sampleB ∧ itemLt sampleA sampleB ∧
    between [sampleA] [sampleA, sampleB] = ⟨[], [⟨sampleA, sampleB⟩], [sampleA]⟩ :=
  ⟨by decide, by decide, by decide,
    claimC10_greatest_first sampleA sampleB (by decide) (by decide) (by decide)⟩
